import Mathlib

/-!
Verification of the TCP load balancer (src/src/lib.rs) against its
natural-language specification.

Shallow embedding conventions:
* `usize` arithmetic is modelled over `Nat` with explicit wrapping modulo
  `2^64` (Rust release-mode semantics; debug mode would panic at the same
  inputs where the wrapping model leaves the representable range).
* `Vec<Arc<Mutex<Backend>>>` is modelled as `List Backend`; an `Arc` handle
  to a pool slot is modelled by the slot's index (`Nat`), since `Arc`
  identity coincides with the pool slot it points to.
* Fallible I/O actions (`TcpStream::connect`, `try_clone`, socket reads and
  writes) are modelled by explicit outcome parameters: the embedded
  function is run against every possible outcome of the environment.
* Thread spawns followed by joins (`handle_client`'s two relay threads)
  are sequentialised: the relay threads never touch the `Backend` record,
  so only the fact that the relay phase ran is recorded.
-/

/-- Width of Rust `usize` on the 64-bit targets this program runs on. -/
def USIZE : Nat := 2 ^ 64

/-- Rust `usize` increment `x += 1` (release-mode wrapping semantics). -/
def usizeAdd1 (n : Nat) : Nat := (n + 1) % USIZE

/-- Rust `usize` decrement `x -= 1` (release-mode wrapping semantics:
`0 - 1` wraps to `USIZE - 1`; debug mode panics at the same input). -/
def usizeSub1 (n : Nat) : Nat := (n + (USIZE - 1)) % USIZE

/-- The `Backend` struct of src/src/lib.rs. -/
structure Backend where
  address : String
  active_connections : Nat
  total_handled : Nat
  maintenance : Bool
  deriving DecidableEq, Repr

/-- The `Strategy` enum of src/src/lib.rs. -/
inductive Strategy where
  | RoundRobin
  | LeastConnections
  deriving DecidableEq, Repr

/-- The `LoadBalancer` struct: pool of shared backend records (a slot is
addressed by its index), the round-robin cursor, and the strategy. -/
structure LoadBalancer where
  backends : List Backend
  current : Nat
  strategy : Strategy
  deriving DecidableEq, Repr

/-- Errors `handle_client` can return, one per fallible operation on its
error paths: `TcpStream::connect`, `client.try_clone()?`,
`server.try_clone()?`. -/
inductive HCError where
  | connectFailed
  | cloneClientFailed
  | cloneServerFailed
  deriving DecidableEq, Repr

/-- Observable outcome of one `handle_client` session: the returned
`Result`, the final state of the assigned backend record, and whether the
relay phase (the two forwarding threads) was started. -/
structure HCOutcome where
  result : Except HCError Unit
  backend : Backend
  relayed : Bool
  deriving Repr

/-- `handle_client` of src/src/lib.rs, restricted to its effect on the
assigned backend record. `connectOk` is the outcome of
`TcpStream::connect(&backend_addr)`, `cloneClientOk` of
`client.try_clone()`, `cloneServerOk` of `server.try_clone()`. The code:
increment `active_connections` and `total_handled` under the lock; on
connect failure decrement `active_connections` and return `Err`; on a
`try_clone` failure return `Err` via `?` (no decrement appears on those
paths); otherwise run both relay threads, join them, decrement
`active_connections`, return `Ok`. -/
def handle_client (be : Backend) (connectOk cloneClientOk cloneServerOk : Bool) : HCOutcome :=
  let be1 : Backend :=
    { be with
      active_connections := usizeAdd1 be.active_connections,
      total_handled := usizeAdd1 be.total_handled }
  if connectOk = false then
    { result := Except.error HCError.connectFailed,
      backend := { be1 with active_connections := usizeSub1 be1.active_connections },
      relayed := false }
  else if cloneClientOk = false then
    { result := Except.error HCError.cloneClientFailed,
      backend := be1,
      relayed := false }
  else if cloneServerOk = false then
    { result := Except.error HCError.cloneServerFailed,
      backend := be1,
      relayed := false }
  else
    { result := Except.ok (),
      backend := { be1 with active_connections := usizeSub1 be1.active_connections },
      relayed := true }

/-- Maintenance flag of the pool slot `i`; out-of-range slots (never
consulted on the reachable states, where the cursor stays below the pool
size) read as `true`. -/
def maintAt (bs : List Backend) (i : Nat) : Bool :=
  match bs.get? i with
  | some b => b.maintenance
  | none => true

/-- The loop body of `LoadBalancer::round_robin`: `fuel` remaining loop
iterations (started at the pool size), `cur` the cursor. Each iteration
reads the slot at the cursor, advances the cursor by one modulo the pool
size, and returns the slot just read if it is not in maintenance. An
out-of-range cursor (which would panic in the Rust code, and is
unreachable from the states the program constructs) stops with `none`. -/
def roundRobinGo (bs : List Backend) : Nat → Nat → Option Nat × Nat
  | 0, cur => (none, cur)
  | fuel + 1, cur =>
    match bs.get? cur with
    | none => (none, cur)
    | some b =>
      if b.maintenance then roundRobinGo bs fuel ((cur + 1) % bs.length)
      else (some cur, (cur + 1) % bs.length)

/-- `LoadBalancer::round_robin`: run the scan for `pool_size` iterations
starting at `self.current`, store the final cursor back into the state,
and return the selected slot (as the model of the cloned `Arc` handle). -/
def round_robin (lb : LoadBalancer) : Option Nat × LoadBalancer :=
  let r := roundRobinGo lb.backends lb.backends.length lb.current
  (r.1, { lb with current := r.2 })

/-- The iterator `self.backends.iter().filter(|b| !b.lock().unwrap().maintenance)`
with each surviving handle represented by its pool index: the indexed
sublist of non-maintenance backends, indices starting at `i`. -/
def healthyIdx : List Backend → Nat → List (Nat × Backend)
  | [], _ => []
  | b :: rest, i =>
    if b.maintenance then healthyIdx rest (i + 1)
    else (i, b) :: healthyIdx rest (i + 1)

/-- Rust `Iterator::min_by_key` on a nonempty iterator `p :: l`, keyed by
`active_connections`: fold keeping the accumulator on ties, so the first
element attaining the minimum key wins. -/
def minFold (p : Nat × Backend) (l : List (Nat × Backend)) : Nat × Backend :=
  l.foldl (fun acc x =>
    if x.2.active_connections < acc.2.active_connections then x else acc) p

/-- `LoadBalancer::least_connections`: filter out maintenance backends,
take the minimum by `active_connections` (`min_by_key`: first minimum
wins on ties), and return the cloned handle (modelled as index paired
with the record it points at). -/
def least_connections (bs : List Backend) : Option (Nat × Backend) :=
  match healthyIdx bs 0 with
  | [] => none
  | p :: rest => some (minFold p rest)

/-- `LoadBalancer::next_backend`: `none` on an empty pool, otherwise
dispatch on the strategy. The returned handle is modelled by the selected
pool index. -/
def next_backend (lb : LoadBalancer) : Option Nat × LoadBalancer :=
  if lb.backends.isEmpty then (none, lb)
  else
    match lb.strategy with
    | Strategy.RoundRobin => round_robin lb
    | Strategy.LeastConnections => ((least_connections lb.backends).map Prod.fst, lb)

/-- A sequence of `k` consecutive `next_backend` calls, collecting the
selected pool indices and threading the balancer state. -/
def selectSeq (lb : LoadBalancer) : Nat → List (Option Nat) × LoadBalancer
  | 0 => ([], lb)
  | k + 1 =>
    let s := next_backend lb
    let rest := selectSeq s.2 k
    (s.1 :: rest.1, rest.2)

/-- Result of one `from.read(&mut buffer)` call in `forward`: `ok data`
models `Ok(data.len())` with `data` the bytes placed in the buffer
(`Ok(0)` is `ok []`); `fail` models `Err(_)`. -/
inductive ReadRes where
  | ok (data : List Nat)
  | fail
  deriving DecidableEq, Repr

/-- Why the `forward` loop stopped: source end-of-stream (`Ok(0)` read),
a failed `write_all`, a failed read, or the event trace running out
(unreachable for a real socket, whose reads block until one of the other
three outcomes happens). -/
inductive Stop where
  | srcClosed
  | writeFailed
  | readFailed
  | starved
  deriving DecidableEq, Repr

/-- The `forward` function of src/src/lib.rs, one relay direction. The
environment is a trace of read outcomes, each paired with the outcome the
matching `write_all` would have. Returns the bytes delivered to the
destination, in order, and the reason the loop stopped: break on `Ok(0)`,
append the chunk and continue on a successful write, break on a failed
write (that chunk is not delivered), break on a failed read. -/
def forward : List (ReadRes × Bool) → List Nat × Stop
  | [] => ([], Stop.starved)
  | (ReadRes.ok data, wOk) :: rest =>
    match data with
    | [] => ([], Stop.srcClosed)
    | b :: bsBytes =>
      if wOk then
        let r := forward rest
        (b :: bsBytes ++ r.1, r.2)
      else ([], Stop.writeFailed)
  | (ReadRes.fail, _) :: _ => ([], Stop.readFailed)

/-- The rejection body built in `run_load_balancer` when no backend is
available. -/
def body503 : String := "Service Unavailable - No healthy backends\n"

/-- The rejection response built in `run_load_balancer`: the `format!`
string with its line-continuation backslashes (which strip the newline
and following indentation), `Content-Length` filled with `body.len()`
(UTF-8 byte count) and the body appended. -/
def response503 : String :=
  "HTTP/1.1 503 Service Unavailable\r\nContent-Length: " ++
    toString body503.utf8ByteSize ++
    "\r\nContent-Type: text/plain\r\nConnection: close\r\n\r\n" ++ body503

/-- What the listener loop does with one accepted client. -/
inductive ClientAction where
  | forwardTo (i : Nat)
  | reject (payload : String)
  deriving DecidableEq, Repr

/-- The per-connection dispatch of `run_load_balancer`: call
`next_backend`; on `Some(backend)` spawn `handle_client` on that handle;
on `None` write the fixed 503 response and shut the socket down. -/
def acceptClient (lb : LoadBalancer) : ClientAction × LoadBalancer :=
  match next_backend lb with
  | (some i, lb') => (ClientAction.forwardTo i, lb')
  | (none, lb') => (ClientAction.reject response503, lb')

lemma usizeAdd1_of_lt {a : Nat} (h : a + 1 < USIZE) : usizeAdd1 a = a + 1 := by
  unfold usizeAdd1
  exact Nat.mod_eq_of_lt h

lemma usizeSub1_usizeAdd1 {a : Nat} (h : a + 1 < USIZE) :
    usizeSub1 (usizeAdd1 a) = a := by
  rw [usizeAdd1_of_lt h]
  unfold usizeSub1
  have h1 : a + 1 + (USIZE - 1) = a + USIZE := by
    have : 1 ≤ USIZE := by unfold USIZE; norm_num
    omega
  rw [h1, Nat.add_mod_right]
  exact Nat.mod_eq_of_lt (by omega)

/-- Claim C4: on backend-connect failure, `handle_client` decrements
`active_connections` back to its pre-assignment value, returns the
connection error, never starts a relay direction, and leaves the other
fields (`address`, `total_handled`, `maintenance`) at the values they had
immediately after the assignment step (`total_handled` stays
incremented). -/
theorem connect_fail_releases (be : Backend) (cloneClientOk cloneServerOk : Bool)
    (h : be.active_connections + 1 < USIZE) :
    handle_client be false cloneClientOk cloneServerOk =
      { result := Except.error HCError.connectFailed,
        backend := { be with total_handled := usizeAdd1 be.total_handled },
        relayed := false } := by
  simp only [handle_client]
  simp [usizeSub1_usizeAdd1 h]

/-- Witness for C4 at a concrete backend. -/
theorem connect_fail_releases_witness :
    (Backend.mk "127.0.0.1:8081" 3 7 false).active_connections + 1 < USIZE ∧
    handle_client (Backend.mk "127.0.0.1:8081" 3 7 false) false true true =
      { result := Except.error HCError.connectFailed,
        backend := Backend.mk "127.0.0.1:8081" 3 (usizeAdd1 7) false,
        relayed := false } :=
  ⟨by decide, connect_fail_releases (Backend.mk "127.0.0.1:8081" 3 7 false) true true (by decide)⟩

/-- Claim C1 (code bug exhibit): when the backend connection succeeds but
`client.try_clone()` fails, `handle_client` returns an error through the
`?` operator without ever decrementing `active_connections`: the
assignment is never released on this exit path, and the counter stays at
its pre-assignment value plus one. -/
theorem clone_fail_leaks_assignment :
    (handle_client (Backend.mk "127.0.0.1:8081" 0 0 false) true false true).backend.active_connections = 1 ∧
    (handle_client (Backend.mk "127.0.0.1:8081" 0 0 false) true false true).relayed = false ∧
    (handle_client (Backend.mk "127.0.0.1:8081" 0 0 false) true false true).result =
      Except.error HCError.cloneClientFailed :=
  ⟨rfl, rfl, rfl⟩

/-- Claim C7 (counterexample): the release operation is a plain wrapping
`usize` decrement with no defensive floor: applied at `0` it wraps to
`USIZE - 1` (release mode; debug mode panics) instead of flooring at
zero. -/
theorem decrement_no_floor_at_zero :
    usizeSub1 0 = USIZE - 1 ∧ usizeSub1 0 ≠ 0 := by
  constructor
  · unfold usizeSub1
    rw [Nat.zero_add]
    exact Nat.mod_eq_of_lt (by unfold USIZE; omega)
  · intro hc
    unfold usizeSub1 USIZE at hc
    rw [Nat.zero_add, Nat.mod_eq_of_lt (by omega)] at hc
    omega

/-- Claim C7 (amended): the decrement has no floor at zero, but on the
paths of `handle_client` where it executes (connect failure and normal
completion) it always follows that session's increment, so it returns
`active_connections` exactly to its pre-increment value and the counter
stays non-negative. -/
theorem release_restores_counter (be : Backend) (cloneClientOk cloneServerOk : Bool)
    (h : be.active_connections + 1 < USIZE) :
    usizeSub1 (usizeAdd1 be.active_connections) = be.active_connections ∧
    (handle_client be false cloneClientOk cloneServerOk).backend.active_connections =
      be.active_connections ∧
    (handle_client be true true true).backend.active_connections = be.active_connections := by
  refine ⟨usizeSub1_usizeAdd1 h, ?_, ?_⟩ <;>
    simp [handle_client, usizeSub1_usizeAdd1 h]

/-- Witness for the amended C7 at a concrete backend. -/
theorem release_restores_counter_witness :
    (Backend.mk "b" 5 9 false).active_connections + 1 < USIZE ∧
    ((handle_client (Backend.mk "b" 5 9 false) false true true).backend.active_connections = 5 ∧
      (handle_client (Backend.mk "b" 5 9 false) true true true).backend.active_connections = 5) :=
  ⟨by decide,
    ⟨(release_restores_counter (Backend.mk "b" 5 9 false) true true (by decide)).2.1,
      (release_restores_counter (Backend.mk "b" 5 9 false) true true (by decide)).2.2⟩⟩

/-- Claim C10: `next_backend` never modifies any backend record or the
strategy; the only state it may change is the cursor `current`, and under
`LeastConnections` the whole balancer state (cursor included) is left
unchanged. -/
theorem next_backend_frame (lb : LoadBalancer) :
    (next_backend lb).2.backends = lb.backends ∧
    (next_backend lb).2.strategy = lb.strategy ∧
    (next_backend lb).2 = { lb with current := (next_backend lb).2.current } ∧
    (lb.strategy = Strategy.LeastConnections → (next_backend lb).2 = lb) := by
  obtain ⟨bs, cur, st⟩ := lb
  unfold next_backend round_robin
  by_cases he : bs.isEmpty <;> cases st <;> simp [he]

/-- Witness for C10: under `LeastConnections` the state is untouched. -/
theorem next_backend_frame_witness :
    (next_backend ⟨[Backend.mk "a" 0 0 false], 0, Strategy.LeastConnections⟩).2 =
      ⟨[Backend.mk "a" 0 0 false], 0, Strategy.LeastConnections⟩ :=
  (next_backend_frame ⟨[Backend.mk "a" 0 0 false], 0, Strategy.LeastConnections⟩).2.2.2 rfl

lemma maintAt_eq_of_get? {bs : List Backend} {i : Nat} {b : Backend}
    (h : bs.get? i = some b) : maintAt bs i = b.maintenance := by
  unfold maintAt
  rw [h]

lemma maintAt_all {bs : List Backend} (h : ∀ b ∈ bs, b.maintenance = true)
    (i : Nat) : maintAt bs i = true := by
  unfold maintAt
  cases hg : bs.get? i with
  | none => rfl
  | some b => exact h b (List.get?_mem hg)

lemma rrGo_none_of_maint (bs : List Backend) :
    ∀ (fuel cur : Nat), cur < bs.length →
      (∀ k, k < fuel → maintAt bs ((cur + k) % bs.length) = true) →
      roundRobinGo bs fuel cur = (none, (cur + fuel) % bs.length) := by
  intro fuel
  induction fuel with
  | zero =>
    intro cur hcur _
    simp [roundRobinGo, Nat.mod_eq_of_lt hcur]
  | succ f ih =>
    intro cur hcur hall
    have hpos : 0 < bs.length := Nat.lt_of_le_of_lt (Nat.zero_le _) hcur
    have hb : bs.get? cur = some (bs.get ⟨cur, hcur⟩) := List.get?_eq_get hcur
    have hm : (bs.get ⟨cur, hcur⟩).maintenance = true := by
      have h0 := hall 0 (Nat.succ_pos f)
      rw [Nat.add_zero, Nat.mod_eq_of_lt hcur, maintAt_eq_of_get? hb] at h0
      exact h0
    have hrec := ih ((cur + 1) % bs.length) (Nat.mod_lt _ hpos) (by
      intro k hk
      have := hall (k + 1) (by omega)
      rw [Nat.mod_add_mod]
      have harith : cur + 1 + k = cur + (k + 1) := by omega
      rw [harith]
      exact this)
    show roundRobinGo bs (f + 1) cur = _
    rw [roundRobinGo, hb]
    simp only [hm, if_true]
    rw [hrec, Nat.mod_add_mod]
    have harith : cur + 1 + f = cur + (f + 1) := by omega
    rw [harith]

lemma rrGo_first (bs : List Backend) :
    ∀ (fuel k cur : Nat), cur < bs.length → k < fuel →
      (∀ j, j < k → maintAt bs ((cur + j) % bs.length) = true) →
      maintAt bs ((cur + k) % bs.length) = false →
      roundRobinGo bs fuel cur =
        (some ((cur + k) % bs.length), (cur + k + 1) % bs.length) := by
  intro fuel
  induction fuel with
  | zero => intro k cur _ hk; omega
  | succ f ih =>
    intro k cur hcur hk hskip hhit
    have hpos : 0 < bs.length := Nat.lt_of_le_of_lt (Nat.zero_le _) hcur
    have hb : bs.get? cur = some (bs.get ⟨cur, hcur⟩) := List.get?_eq_get hcur
    cases k with
    | zero =>
      have hm : (bs.get ⟨cur, hcur⟩).maintenance = false := by
        rw [Nat.add_zero, Nat.mod_eq_of_lt hcur, maintAt_eq_of_get? hb] at hhit
        exact hhit
      rw [roundRobinGo, hb]
      simp only [hm, Bool.false_eq_true, if_false]
      have h0 : (cur + 0) % bs.length = cur := by
        rw [Nat.add_zero, Nat.mod_eq_of_lt hcur]
      have h1 : cur + 0 + 1 = cur + 1 := by omega
      rw [h0, h1]
    | succ k' =>
      have hm : (bs.get ⟨cur, hcur⟩).maintenance = true := by
        have h0 := hskip 0 (Nat.succ_pos k')
        rw [Nat.add_zero, Nat.mod_eq_of_lt hcur, maintAt_eq_of_get? hb] at h0
        exact h0
      have hrec := ih k' ((cur + 1) % bs.length) (Nat.mod_lt _ hpos) (by omega)
        (by
          intro j hj
          have := hskip (j + 1) (by omega)
          rw [Nat.mod_add_mod]
          have h2 : cur + 1 + j = cur + (j + 1) := by omega
          rw [h2]
          exact this)
        (by
          rw [Nat.mod_add_mod]
          have h2 : cur + 1 + k' = cur + (k' + 1) := by omega
          rw [h2]
          exact hhit)
      rw [roundRobinGo, hb]
      simp only [hm, if_true]
      rw [hrec]
      have e1 : ((cur + 1) % bs.length + k') % bs.length =
          (cur + (k' + 1)) % bs.length := by
        rw [Nat.mod_add_mod]
        have h3 : cur + 1 + k' = cur + (k' + 1) := by omega
        rw [h3]
      have e2 : ((cur + 1) % bs.length + k' + 1) % bs.length =
          (cur + (k' + 1) + 1) % bs.length := by
        have h5 : (cur + 1) % bs.length + k' + 1 = (cur + 1) % bs.length + (k' + 1) := by
          omega
        rw [h5, Nat.mod_add_mod]
        have h6 : cur + 1 + (k' + 1) = cur + (k' + 1) + 1 := by omega
        rw [h6]
      rw [e1, e2]

/-- The maintenance pattern of the pool used in the spec's round-robin
scenario: `[A(maint=false), B(maint=true), C(maint=false)]`. -/
def rrExample : List Backend :=
  [Backend.mk "A" 0 0 false, Backend.mk "B" 0 0 true, Backend.mk "C" 0 0 false]

/-- Claim C2: on a non-empty pool under `RoundRobin`, `next_backend`
scans at most `pool_size` candidates starting at the cursor in cyclic
order, advances the cursor by one (mod pool size) per candidate examined
(skipped maintenance ones included), returns the first non-maintenance
candidate, and returns `none` (restoring the cursor to its starting
value after a full cycle) when every candidate is in maintenance; in
particular on the pool `[A(ok), B(maint), C(ok)]` the call at cursor 0
returns slot `A` leaving cursor 1, and the call at cursor 1 skips `B`,
returns slot `C` and leaves cursor 0. -/
theorem round_robin_scan (bs : List Backend) (cur : Nat) (hcur : cur < bs.length) :
    (∀ k, k < bs.length →
        (∀ j, j < k → maintAt bs ((cur + j) % bs.length) = true) →
        maintAt bs ((cur + k) % bs.length) = false →
        next_backend ⟨bs, cur, Strategy.RoundRobin⟩ =
          (some ((cur + k) % bs.length),
            ⟨bs, (cur + k + 1) % bs.length, Strategy.RoundRobin⟩)) ∧
    ((∀ k, k < bs.length → maintAt bs ((cur + k) % bs.length) = true) →
        next_backend ⟨bs, cur, Strategy.RoundRobin⟩ =
          (none, ⟨bs, cur, Strategy.RoundRobin⟩)) ∧
    (next_backend ⟨rrExample, 0, Strategy.RoundRobin⟩ =
        (some 0, ⟨rrExample, 1, Strategy.RoundRobin⟩) ∧
      next_backend ⟨rrExample, 1, Strategy.RoundRobin⟩ =
        (some 2, ⟨rrExample, 0, Strategy.RoundRobin⟩)) := by
  have hne : bs.isEmpty = false := by
    cases bs with
    | nil => simp at hcur
    | cons a l => rfl
  refine ⟨?_, ?_, by decide, by decide⟩
  · intro k hk hskip hhit
    unfold next_backend round_robin
    simp only [hne, Bool.false_eq_true, if_false]
    rw [rrGo_first bs bs.length k cur hcur hk hskip hhit]
  · intro hall
    unfold next_backend round_robin
    simp only [hne, Bool.false_eq_true, if_false]
    rw [rrGo_none_of_maint bs bs.length cur hcur (fun k hk => hall k hk)]
    rw [Nat.add_mod_right, Nat.mod_eq_of_lt hcur]

/-- Witness for C2: the spec's scenario, extracted by applying the
theorem to the `rrExample` pool at cursor 0. -/
theorem round_robin_scan_witness :
    next_backend ⟨rrExample, 0, Strategy.RoundRobin⟩ =
        (some 0, ⟨rrExample, 1, Strategy.RoundRobin⟩) ∧
      next_backend ⟨rrExample, 1, Strategy.RoundRobin⟩ =
        (some 2, ⟨rrExample, 0, Strategy.RoundRobin⟩) :=
  (round_robin_scan rrExample 0 (by decide)).2.2

lemma healthyIdx_nil_of_maint :
    ∀ (bs : List Backend), (∀ b ∈ bs, b.maintenance = true) →
      ∀ i, healthyIdx bs i = [] := by
  intro bs
  induction bs with
  | nil => intro _ _; rfl
  | cons b rest ih =>
    intro h i
    have hb : b.maintenance = true := h b (List.mem_cons_self b rest)
    unfold healthyIdx
    rw [hb]
    simp only [if_true]
    exact ih (fun x hx => h x (List.mem_cons_of_mem b hx)) (i + 1)

/-- Claim C5: on an empty pool, or a pool in which every backend is in
maintenance, `next_backend` returns `none` — an empty result, not an
error — under both strategies. The selection functions are total
terminating computations (a bounded scan and a single fold), so the
result is produced immediately, with no blocking or waiting. -/
theorem next_backend_none_cases (lb : LoadBalancer)
    (h : lb.backends = [] ∨
      (lb.current < lb.backends.length ∧ ∀ b ∈ lb.backends, b.maintenance = true)) :
    (next_backend lb).1 = none := by
  rcases h with hnil | ⟨hcur, hall⟩
  · unfold next_backend
    rw [hnil]
    rfl
  · have hne : lb.backends.isEmpty = false := by
      cases hbs : lb.backends with
      | nil => rw [hbs] at hcur; simp at hcur
      | cons a l => rfl
    unfold next_backend
    rw [hne]
    simp only [Bool.false_eq_true, if_false]
    cases hs : lb.strategy with
    | RoundRobin =>
      unfold round_robin
      rw [rrGo_none_of_maint lb.backends lb.backends.length lb.current hcur
        (fun k _ => maintAt_all hall _)]
    | LeastConnections =>
      unfold least_connections
      rw [healthyIdx_nil_of_maint lb.backends hall 0]
      simp

/-- Witness for C5: a pool whose only two backends are both in
maintenance, under each strategy, and the empty pool. -/
theorem next_backend_none_cases_witness :
    (next_backend ⟨[Backend.mk "a" 0 0 true, Backend.mk "b" 4 2 true], 1,
        Strategy.RoundRobin⟩).1 = none ∧
    (next_backend ⟨[Backend.mk "a" 0 0 true, Backend.mk "b" 4 2 true], 0,
        Strategy.LeastConnections⟩).1 = none ∧
    (next_backend ⟨[], 0, Strategy.RoundRobin⟩).1 = none :=
  ⟨next_backend_none_cases _ (Or.inr ⟨by decide, by decide⟩),
    next_backend_none_cases _ (Or.inr ⟨by decide, by decide⟩),
    next_backend_none_cases _ (Or.inl rfl)⟩

/-- Claim C6: whenever `next_backend` yields no backend for an accepted
client, the listener writes exactly the literal fixed 503 payload — the
status line, a `Content-Length` equal to the body's byte length (42),
`Content-Type: text/plain`, `Connection: close`, and the body
`"Service Unavailable - No healthy backends\n"` — and never dispatches a
forward on this path. -/
theorem reject_literal_503 (lb lb' : LoadBalancer)
    (h : next_backend lb = (none, lb')) :
    acceptClient lb = (ClientAction.reject response503, lb') ∧
    response503 =
      "HTTP/1.1 503 Service Unavailable\r\nContent-Length: 42\r\nContent-Type: text/plain\r\nConnection: close\r\n\r\nService Unavailable - No healthy backends\n" ∧
    body503.utf8ByteSize = 42 ∧
    ∀ i lb'', acceptClient lb ≠ (ClientAction.forwardTo i, lb'') := by
  have hacc : acceptClient lb = (ClientAction.reject response503, lb') := by
    unfold acceptClient
    rw [h]
  refine ⟨hacc, by decide, by decide, ?_⟩
  intro i lb'' hcontra
  rw [hacc] at hcontra
  simp at hcontra

/-- Witness for C6 at the empty pool. -/
theorem reject_literal_503_witness :
    acceptClient ⟨[], 0, Strategy.RoundRobin⟩ =
      (ClientAction.reject response503, ⟨[], 0, Strategy.RoundRobin⟩) ∧
    response503 =
      "HTTP/1.1 503 Service Unavailable\r\nContent-Length: 42\r\nContent-Type: text/plain\r\nConnection: close\r\n\r\nService Unavailable - No healthy backends\n" :=
  ⟨(reject_literal_503 ⟨[], 0, Strategy.RoundRobin⟩ ⟨[], 0, Strategy.RoundRobin⟩ rfl).1,
    (reject_literal_503 ⟨[], 0, Strategy.RoundRobin⟩ ⟨[], 0, Strategy.RoundRobin⟩ rfl).2.1⟩

lemma count_one_of_nodup {α : Type} [BEq α] [LawfulBEq α] {l : List α} {a : α}
    (hn : l.Nodup) (hm : a ∈ l) : l.count a = 1 := by
  induction l with
  | nil => simp at hm
  | cons b t ih =>
    rw [List.count_cons]
    rcases List.mem_cons.mp hm with rfl | hmem
    · rw [List.count_eq_zero.mpr (List.nodup_cons.mp hn).1]
      simp
    · have hne : b ≠ a := by
        rintro rfl
        exact (List.nodup_cons.mp hn).1 hmem
      rw [ih (List.nodup_cons.mp hn).2 hmem]
      simp [hne]

lemma next_backend_healthy (bs : List Backend) (cur : Nat)
    (hcur : cur < bs.length) (hall : ∀ b ∈ bs, b.maintenance = false) :
    next_backend ⟨bs, cur, Strategy.RoundRobin⟩ =
      (some cur, ⟨bs, (cur + 1) % bs.length, Strategy.RoundRobin⟩) := by
  have hne : bs.isEmpty = false := by
    cases bs with
    | nil => simp at hcur
    | cons a l => rfl
  have hb : bs.get? cur = some (bs.get ⟨cur, hcur⟩) := List.get?_eq_get hcur
  have hhit : maintAt bs ((cur + 0) % bs.length) = false := by
    rw [Nat.add_zero, Nat.mod_eq_of_lt hcur, maintAt_eq_of_get? hb]
    exact hall _ (List.get?_mem hb)
  have h := rrGo_first bs bs.length 0 cur hcur (by omega) (fun j hj => by omega) hhit
  unfold next_backend round_robin
  rw [hne]
  simp only [Bool.false_eq_true, if_false, h]
  have h0 : (cur + 0) % bs.length = cur := by
    rw [Nat.add_zero, Nat.mod_eq_of_lt hcur]
  have h1 : cur + 0 + 1 = cur + 1 := by omega
  rw [h0, h1]

lemma selectSeq_healthy (bs : List Backend) (hall : ∀ b ∈ bs, b.maintenance = false) :
    ∀ (k cur : Nat), cur < bs.length →
      (selectSeq ⟨bs, cur, Strategy.RoundRobin⟩ k).1 =
        (List.range k).map (fun i => some ((cur + i) % bs.length)) := by
  intro k
  induction k with
  | zero => intro cur _; rfl
  | succ k ih =>
    intro cur hcur
    have hpos : 0 < bs.length := Nat.lt_of_le_of_lt (Nat.zero_le _) hcur
    have hnb := next_backend_healthy bs cur hcur hall
    show (selectSeq ⟨bs, cur, Strategy.RoundRobin⟩ (k + 1)).1 = _
    rw [selectSeq]
    simp only [hnb]
    rw [ih ((cur + 1) % bs.length) (Nat.mod_lt _ hpos)]
    rw [List.range_succ_eq_map, List.map_cons, List.map_map]
    have h0 : (cur + 0) % bs.length = cur := by
      rw [Nat.add_zero, Nat.mod_eq_of_lt hcur]
    rw [h0]
    refine congrArg (some cur :: ·) (List.map_congr_left ?_)
    intro i _
    simp only [Function.comp_apply, Nat.succ_eq_add_one]
    rw [Nat.mod_add_mod]
    have he : cur + 1 + i = cur + (i + 1) := by omega
    rw [he]

/-- Claim C8: on a non-empty all-healthy pool under `RoundRobin`, a run
of `pool_size` consecutive `next_backend` calls returns the slots
`(cur + 0) % n, (cur + 1) % n, …` — the stable rotating order starting at
the cursor — and every slot of the pool is returned exactly once in that
cycle. -/
theorem round_robin_full_cycle (bs : List Backend) (cur : Nat)
    (hcur : cur < bs.length) (hall : ∀ b ∈ bs, b.maintenance = false) :
    (selectSeq ⟨bs, cur, Strategy.RoundRobin⟩ bs.length).1 =
      (List.range bs.length).map (fun i => some ((cur + i) % bs.length)) ∧
    ∀ j, j < bs.length →
      ((selectSeq ⟨bs, cur, Strategy.RoundRobin⟩ bs.length).1).count (some j) = 1 := by
  have hpos : 0 < bs.length := Nat.lt_of_le_of_lt (Nat.zero_le _) hcur
  have hseq := selectSeq_healthy bs hall bs.length cur hcur
  refine ⟨hseq, ?_⟩
  intro j hj
  rw [hseq]
  have hinj : ∀ x ∈ List.range bs.length, ∀ y ∈ List.range bs.length,
      (fun i => some ((cur + i) % bs.length)) x =
        (fun i => some ((cur + i) % bs.length)) y → x = y := by
    intro x hx y hy hxy
    simp only [Option.some_inj] at hxy
    have hmx : x < bs.length := List.mem_range.mp hx
    have hmy : y < bs.length := List.mem_range.mp hy
    have hcancel : x ≡ y [MOD bs.length] :=
      Nat.ModEq.add_left_cancel' cur hxy
    unfold Nat.ModEq at hcancel
    rw [Nat.mod_eq_of_lt hmx, Nat.mod_eq_of_lt hmy] at hcancel
    exact hcancel
  have hnodup : ((List.range bs.length).map
      (fun i => some ((cur + i) % bs.length))).Nodup :=
    List.Nodup.map_on hinj (List.nodup_range bs.length)
  have hmem : some j ∈ (List.range bs.length).map
      (fun i => some ((cur + i) % bs.length)) := by
    rcases Nat.lt_or_ge j cur with hlt | hge
    · refine List.mem_map.mpr ⟨j + bs.length - cur, List.mem_range.mpr (by omega), ?_⟩
      have he : cur + (j + bs.length - cur) = j + bs.length := by omega
      rw [he, Nat.add_mod_right, Nat.mod_eq_of_lt hj]
    · refine List.mem_map.mpr ⟨j - cur, List.mem_range.mpr (by omega), ?_⟩
      have he : cur + (j - cur) = j := by omega
      rw [he, Nat.mod_eq_of_lt hj]
  exact count_one_of_nodup hnodup hmem

/-- Witness for C8: a three-backend all-healthy pool cycled from cursor
1: the calls return slots 1, 2, 0, each exactly once. -/
theorem round_robin_full_cycle_witness :
    (selectSeq ⟨[Backend.mk "A" 0 0 false, Backend.mk "B" 0 0 false,
        Backend.mk "C" 0 0 false], 1, Strategy.RoundRobin⟩ 3).1 =
      (List.range 3).map (fun i => some ((1 + i) % 3)) ∧
    ((selectSeq ⟨[Backend.mk "A" 0 0 false, Backend.mk "B" 0 0 false,
        Backend.mk "C" 0 0 false], 1, Strategy.RoundRobin⟩ 3).1).count (some 0) = 1 :=
  ⟨(round_robin_full_cycle _ 1 (by decide) (by decide)).1,
    (round_robin_full_cycle _ 1 (by decide) (by decide)).2 0 (by decide)⟩

lemma healthyIdx_sub :
    ∀ (bs : List Backend) (i j : Nat) (x : Backend),
      (j, x) ∈ healthyIdx bs i →
      i ≤ j ∧ bs.get? (j - i) = some x ∧ x.maintenance = false := by
  intro bs
  induction bs with
  | nil => intro i j x h; simp [healthyIdx] at h
  | cons b rest ih =>
    intro i j x h
    by_cases hb : b.maintenance = true
    · simp only [healthyIdx, hb, if_true] at h
      obtain ⟨h1, h2, h3⟩ := ih (i + 1) j x h
      refine ⟨by omega, ?_, h3⟩
      have he : j - i = (j - (i + 1)) + 1 := by omega
      rw [he, List.get?_cons_succ]
      exact h2
    · have hb' : b.maintenance = false := by
        revert hb; cases b.maintenance <;> simp
      simp only [healthyIdx, hb', Bool.false_eq_true, if_false] at h
      rcases List.mem_cons.mp h with heq | hmem
      · have hj : j = i := by
          have := congrArg Prod.fst heq
          simpa using this
        have hx : x = b := by
          have := congrArg Prod.snd heq
          simpa using this
        subst hj
        subst hx
        refine ⟨le_refl _, ?_, hb'⟩
        rw [Nat.sub_self, List.get?_cons_zero]
      · obtain ⟨h1, h2, h3⟩ := ih (i + 1) j x hmem
        refine ⟨by omega, ?_, h3⟩
        have he : j - i = (j - (i + 1)) + 1 := by omega
        rw [he, List.get?_cons_succ]
        exact h2

lemma healthyIdx_mem :
    ∀ (bs : List Backend) (i k : Nat) (x : Backend),
      bs.get? k = some x → x.maintenance = false →
      (i + k, x) ∈ healthyIdx bs i := by
  intro bs
  induction bs with
  | nil => intro i k x h _; simp at h
  | cons b rest ih =>
    intro i k x h hx
    cases k with
    | zero =>
      rw [List.get?_cons_zero] at h
      have hbx : b = x := by injection h
      subst hbx
      simp [healthyIdx, hx]
    | succ k' =>
      rw [List.get?_cons_succ] at h
      have hm := ih (i + 1) k' x h hx
      have harith : i + (k' + 1) = (i + 1) + k' := by omega
      rw [harith]
      by_cases hb : b.maintenance = true
      · simpa [healthyIdx, hb] using hm
      · have hb' : b.maintenance = false := by
          revert hb; cases b.maintenance <;> simp
        simp only [healthyIdx, hb', Bool.false_eq_true, if_false]
        exact List.mem_cons_of_mem _ hm

lemma healthyIdx_pairwise :
    ∀ (bs : List Backend) (i : Nat),
      (healthyIdx bs i).Pairwise (fun a c => a.1 < c.1) := by
  intro bs
  induction bs with
  | nil => intro i; simp [healthyIdx]
  | cons b rest ih =>
    intro i
    by_cases hb : b.maintenance = true
    · simpa [healthyIdx, hb] using ih (i + 1)
    · have hb' : b.maintenance = false := by
        revert hb; cases b.maintenance <;> simp
      simp only [healthyIdx, hb', Bool.false_eq_true, if_false]
      refine List.pairwise_cons.mpr ⟨?_, ih (i + 1)⟩
      intro q hq
      have hsub := healthyIdx_sub rest (i + 1) q.1 q.2 (by simpa using hq)
      have : i + 1 ≤ q.1 := hsub.1
      omega

lemma minFold_spec :
    ∀ (rest : List (Nat × Backend)) (p : Nat × Backend),
      ((p :: rest).Pairwise fun a c => a.1 < c.1) →
      minFold p rest ∈ p :: rest ∧
      (∀ x ∈ p :: rest,
        (minFold p rest).2.active_connections ≤ x.2.active_connections) ∧
      (∀ x ∈ p :: rest, x.1 < (minFold p rest).1 →
        (minFold p rest).2.active_connections < x.2.active_connections) ∧
      (minFold p rest = p ∨
        (minFold p rest).2.active_connections < p.2.active_connections) := by
  intro rest
  induction rest with
  | nil =>
    intro p _
    refine ⟨List.mem_cons_self p [], ?_, ?_, Or.inl rfl⟩
    · intro x hx
      rcases List.mem_cons.mp hx with rfl | hx'
      · exact le_refl _
      · simp at hx'
    · intro x hx hlt
      rcases List.mem_cons.mp hx with rfl | hx'
      · simp [minFold] at hlt
      · simp at hx'
  | cons x xs ih =>
    intro p hpw
    have hstep : minFold p (x :: xs) =
        minFold (if x.2.active_connections < p.2.active_connections then x else p) xs := rfl
    obtain ⟨hhead, htail⟩ := List.pairwise_cons.mp hpw
    by_cases hlt : x.2.active_connections < p.2.active_connections
    · rw [if_pos hlt] at hstep
      obtain ⟨m1, m2, m3, m4⟩ := ih x htail
      rw [hstep]
      have hrx : (minFold x xs).2.active_connections ≤ x.2.active_connections :=
        m2 x (List.mem_cons_self x xs)
      refine ⟨List.mem_cons_of_mem p m1, ?_, ?_, ?_⟩
      · intro y hy
        rcases List.mem_cons.mp hy with rfl | hy'
        · omega
        · exact m2 y hy'
      · intro y hy hylt
        rcases List.mem_cons.mp hy with rfl | hy'
        · omega
        · exact m3 y hy' hylt
      · right
        omega
    · rw [if_neg hlt] at hstep
      have hpw' : (p :: xs).Pairwise (fun a c => a.1 < c.1) := by
        refine List.pairwise_cons.mpr ⟨?_, (List.pairwise_cons.mp htail).2⟩
        intro a' ha'
        exact hhead a' (List.mem_cons_of_mem x ha')
      obtain ⟨m1, m2, m3, m4⟩ := ih p hpw'
      rw [hstep]
      have hxp : p.2.active_connections ≤ x.2.active_connections := by omega
      have hrp : (minFold p xs).2.active_connections ≤ p.2.active_connections :=
        m2 p (List.mem_cons_self p xs)
      refine ⟨?_, ?_, ?_, m4⟩
      · rcases List.mem_cons.mp m1 with hre | hr'
        · rw [hre]; exact List.mem_cons_self p (x :: xs)
        · exact List.mem_cons_of_mem p (List.mem_cons_of_mem x hr')
      · intro y hy
        rcases List.mem_cons.mp hy with rfl | hy'
        · exact m2 _ (List.mem_cons_self _ _)
        rcases List.mem_cons.mp hy' with rfl | hy''
        · omega
        · exact m2 y (List.mem_cons_of_mem p hy'')
      · intro y hy hylt
        rcases List.mem_cons.mp hy with rfl | hy'
        · exact m3 _ (List.mem_cons_self _ _) hylt
        rcases List.mem_cons.mp hy' with rfl | hy''
        · rcases m4 with hre | hlt2
          · exfalso
            have hpx : p.1 < y.1 := hhead y (List.mem_cons_self y xs)
            rw [hre] at hylt
            omega
          · omega
        · exact m3 y (List.mem_cons_of_mem p hy'') hylt

/-- Claim C3: on any pool with at least one non-maintenance backend,
`least_connections` returns a non-maintenance backend whose
`active_connections` is the minimum over all non-maintenance backends of
the pool, and among the backends attaining that minimum the one at the
lowest pool index is returned. -/
theorem least_connections_min (bs : List Backend)
    (h : ∃ b ∈ bs, b.maintenance = false) :
    ∃ i b, least_connections bs = some (i, b) ∧
      bs.get? i = some b ∧
      b.maintenance = false ∧
      (∀ j x, bs.get? j = some x → x.maintenance = false →
        b.active_connections ≤ x.active_connections) ∧
      (∀ j x, bs.get? j = some x → x.maintenance = false →
        x.active_connections = b.active_connections → i ≤ j) := by
  obtain ⟨b0, hb0mem, hb0⟩ := h
  obtain ⟨k0, hk0⟩ := List.get?_of_mem hb0mem
  have hmem0 : (0 + k0, b0) ∈ healthyIdx bs 0 := healthyIdx_mem bs 0 k0 b0 hk0 hb0
  cases hH : healthyIdx bs 0 with
  | nil => rw [hH] at hmem0; simp at hmem0
  | cons p rest =>
    have hpw : (p :: rest).Pairwise (fun a c => a.1 < c.1) := by
      rw [← hH]
      exact healthyIdx_pairwise bs 0
    obtain ⟨m1, m2, m3, _⟩ := minFold_spec rest p hpw
    have hlc : least_connections bs = some (minFold p rest) := by
      unfold least_connections
      rw [hH]
    have hrmem : ((minFold p rest).1, (minFold p rest).2) ∈ healthyIdx bs 0 := by
      rw [hH]
      simpa using m1
    obtain ⟨_, hget, hmaint⟩ := healthyIdx_sub bs 0 (minFold p rest).1 (minFold p rest).2 hrmem
    rw [Nat.sub_zero] at hget
    refine ⟨(minFold p rest).1, (minFold p rest).2, hlc, hget, hmaint, ?_, ?_⟩
    · intro j x hj hx
      have hmemj : (0 + j, x) ∈ healthyIdx bs 0 := healthyIdx_mem bs 0 j x hj hx
      rw [hH] at hmemj
      have := m2 (0 + j, x) hmemj
      simpa using this
    · intro j x hj hx heq
      by_contra hcon
      push_neg at hcon
      have hmemj : (0 + j, x) ∈ healthyIdx bs 0 := healthyIdx_mem bs 0 j x hj hx
      rw [hH] at hmemj
      have hstrict := m3 (0 + j, x) hmemj (by simpa using hcon)
      simp only at hstrict
      omega

/-- Witness for C3: among the non-maintenance backends of a concrete
four-slot pool, the two tied minima sit at indices 1 and 3, and the one
at index 1 is returned. -/
theorem least_connections_min_witness :
    ∃ i b, least_connections [Backend.mk "a" 2 0 false, Backend.mk "b" 1 0 false,
        Backend.mk "c" 0 0 true, Backend.mk "d" 1 0 false] = some (i, b) ∧
      [Backend.mk "a" 2 0 false, Backend.mk "b" 1 0 false,
        Backend.mk "c" 0 0 true, Backend.mk "d" 1 0 false].get? i = some b ∧
      b.maintenance = false ∧
      (∀ j x, [Backend.mk "a" 2 0 false, Backend.mk "b" 1 0 false,
          Backend.mk "c" 0 0 true, Backend.mk "d" 1 0 false].get? j = some x →
        x.maintenance = false → b.active_connections ≤ x.active_connections) ∧
      (∀ j x, [Backend.mk "a" 2 0 false, Backend.mk "b" 1 0 false,
          Backend.mk "c" 0 0 true, Backend.mk "d" 1 0 false].get? j = some x →
        x.maintenance = false → x.active_connections = b.active_connections → i ≤ j) :=
  least_connections_min _ ⟨Backend.mk "b" 1 0 false, by decide, rfl⟩

lemma forward_successes (chunks : List (List Nat)) (evs : List (ReadRes × Bool))
    (h : ∀ d ∈ chunks, d ≠ []) :
    forward (chunks.map (fun d => (ReadRes.ok d, true)) ++ evs) =
      (chunks.join ++ (forward evs).1, (forward evs).2) := by
  induction chunks with
  | nil => simp
  | cons d ds ih =>
    have hd : d ≠ [] := h d (List.mem_cons_self d ds)
    cases d with
    | nil => exact absurd rfl hd
    | cons b bsBytes =>
      have ihh := ih (fun d' hd' => h d' (List.mem_cons_of_mem _ hd'))
      simp only [List.map_cons, List.cons_append, List.join]
      rw [forward]
      simp only [if_true]
      rw [ihh]
      simp [List.append_assoc]

/-- Claim C9: each relay direction copies its source verbatim. For every
byte stream and every partition of it into non-empty read chunks, the
bytes delivered to the destination are exactly the bytes read, in order:
the loop forwards every chunk unchanged while reads succeed and writes
succeed, and terminates exactly at the first end-of-stream read
(`Ok(0)`), failed read, or failed write (a failed write also stops the
loop after all previously read chunks were delivered). -/
theorem forward_verbatim :
    (∀ (chunks : List (List Nat)) (w : Bool) (rest : List (ReadRes × Bool)),
        (∀ d ∈ chunks, d ≠ []) →
        forward (chunks.map (fun d => (ReadRes.ok d, true)) ++ (ReadRes.ok [], w) :: rest) =
          (chunks.join, Stop.srcClosed)) ∧
    (∀ (chunks : List (List Nat)) (w : Bool) (rest : List (ReadRes × Bool)),
        (∀ d ∈ chunks, d ≠ []) →
        forward (chunks.map (fun d => (ReadRes.ok d, true)) ++ (ReadRes.fail, w) :: rest) =
          (chunks.join, Stop.readFailed)) ∧
    (∀ (chunks : List (List Nat)) (d : List Nat) (rest : List (ReadRes × Bool)),
        (∀ d' ∈ chunks, d' ≠ []) → d ≠ [] →
        forward (chunks.map (fun d' => (ReadRes.ok d', true)) ++ (ReadRes.ok d, false) :: rest) =
          (chunks.join, Stop.writeFailed)) := by
  refine ⟨?_, ?_, ?_⟩
  · intro chunks w rest h
    rw [forward_successes chunks _ h]
    simp [forward]
  · intro chunks w rest h
    rw [forward_successes chunks _ h]
    simp [forward]
  · intro chunks d rest h hd
    rw [forward_successes chunks _ h]
    cases d with
    | nil => exact absurd rfl hd
    | cons b bsBytes => simp [forward]

/-- Witness for C9: a concrete two-chunk stream ending in end-of-stream
is delivered verbatim; the same chunks ending in a read failure are too;
a failing write stops the loop after the chunks already copied. -/
theorem forward_verbatim_witness :
    forward ([[1, 2], [3]].map (fun d => (ReadRes.ok d, true)) ++
        (ReadRes.ok [], true) :: []) = ([[1, 2], [3]].join, Stop.srcClosed) ∧
    forward ([[1, 2], [3]].map (fun d => (ReadRes.ok d, true)) ++
        (ReadRes.fail, true) :: []) = ([[1, 2], [3]].join, Stop.readFailed) ∧
    forward ([[1, 2]].map (fun d => (ReadRes.ok d, true)) ++
        (ReadRes.ok [9], false) :: []) = ([[1, 2]].join, Stop.writeFailed) :=
  ⟨forward_verbatim.1 [[1, 2], [3]] true [] (by decide),
    forward_verbatim.2.1 [[1, 2], [3]] true [] (by decide),
    forward_verbatim.2.2 [[1, 2]] [9] [] (by decide) (by decide)⟩
